import Mathlib

/-!
# Verification of the wordbox repository (filter.py, filter_pairs.py)

Shallow embedding of the two Python scripts.  Characters are modelled as
Unicode code points (`Nat`), restricted in behaviour to the ASCII
alphabet, which is exactly the range used by the scripts:
`ALPHA_RE = re.compile(r"[A-Za-z]")` in filter.py is ASCII-only, and the
puzzle squares and the ENABLE word list are ASCII.  Words are lists of
code points.  Fallible Python code (raising `ValueError`, exiting with
code 2) is modelled with `Except`/`Option`.
-/

namespace Wordbox

/-- A string of the Python scripts: a list of Unicode code points; an
individual character is its code point, a `Nat`. -/
abbrev Word := List Nat

/-- `'A' <= c <= 'Z'`: what `[A-Z]` matches, and `str.isupper` on ASCII. -/
def isUpperCh (c : Nat) : Bool := 65 ≤ c && c ≤ 90

/-- `'a' <= c <= 'z'`: what `[a-z]` matches, and `str.islower` on ASCII. -/
def isLowerCh (c : Nat) : Bool := 97 ≤ c && c ≤ 122

/-- `[A-Za-z]`, i.e. `ALPHA_RE.fullmatch(ch)` in filter.py and
`ch.isalpha()` (resp. `str.isalpha`) restricted to ASCII. -/
def isAlphaCh (c : Nat) : Bool := isUpperCh c || isLowerCh c

/-- `ch.lower()` on ASCII: shift `A-Z` down by 32, leave the rest. -/
def toLowerCh (c : Nat) : Nat := if isUpperCh c then c + 32 else c

/-- `ch.upper()` on ASCII: shift `a-z` up by 32, leave the rest. -/
def toUpperCh (c : Nat) : Nat := if isLowerCh c then c - 32 else c

/-- The whitespace code points stripped by Python's `str.strip()`
(space, tab, LF, VT, FF, CR). -/
def isSpaceCh (c : Nat) : Bool :=
  c == 32 || c == 9 || c == 10 || c == 11 || c == 12 || c == 13

/-- `str.strip()`: drop leading and trailing whitespace. -/
def pyStrip (s : List Nat) : List Nat :=
  ((s.dropWhile isSpaceCh).reverse.dropWhile isSpaceCh).reverse

/-- `w.isalpha()`: true iff `w` is nonempty and every character is
alphabetic. -/
def pyIsAlpha (w : Word) : Bool := !w.isEmpty && w.all isAlphaCh

/-- `normalize_letters` from filter.py (and, on ASCII input, the identical
function of filter_pairs.py):
`''.join(ch.lower() for ch in s if ALPHA_RE.fullmatch(ch))`. -/
def normalize_letters : List Nat → List Nat
  | [] => []
  | c :: cs =>
    if isAlphaCh c then toLowerCh c :: normalize_letters cs
    else normalize_letters cs

/-- The four slices `[twelve[0:3], twelve[3:6], twelve[6:9], twelve[9:12]]`
returned by `split_sides` on success. -/
def sidesOf (twelve : List Nat) : List Word :=
  [twelve.take 3, (twelve.drop 3).take 3, (twelve.drop 6).take 3,
   (twelve.drop 9).take 3]

/-- `split_sides` from filter.py / filter_pairs.py: four sides of length 3
from a 12-letter string; raises `ValueError` (modelled as `Except.error`)
carrying the offending length when the input is not 12 characters. -/
def split_sides (twelve : List Nat) : Except Nat (List Word) :=
  if twelve.length = 12 then Except.ok (sidesOf twelve)
  else Except.error twelve.length

/-- Insert into a sorted list (auxiliary for `sortedDedup`). -/
def insertSorted (c : Nat) : List Nat → List Nat
  | [] => [c]
  | d :: ds => if c ≤ d then c :: d :: ds else d :: insertSorted c ds

/-- Insertion sort on code points (auxiliary for `sortedDedup`). -/
def sortChars : List Nat → List Nat
  | [] => []
  | c :: cs => insertSorted c (sortChars cs)

/-- Python's `''.join(sorted(set(l)))`: the distinct elements of `l` in
increasing order. -/
def sortedDedup (l : List Nat) : List Nat := sortChars l.dedup

/-- One entry of `norm_sides` in `build_letterboxed_regex`:
`''.join(sorted(set(s.lower())))`. -/
def sideClass (s : Word) : Word := sortedDedup (s.map toLowerCh)

/-- `allowed` in `build_letterboxed_regex`:
`''.join(sorted(set(''.join(norm_sides))))`. -/
def allowedClass (sides : List Word) : Word :=
  sortedDedup ((sides.map sideClass).flatten)

/-- Membership of a character in a regex character class built from the
(lowercase) letters `cls`.  With `re.IGNORECASE` (`ci = true`) a character
matches the class when it, its lowercase or its uppercase form is listed;
without the flag membership is literal. -/
def matchClass (ci : Bool) (cls : Word) (c : Nat) : Bool :=
  if ci then cls.contains c || cls.contains (toLowerCh c)
        || cls.contains (toUpperCh c)
  else cls.contains c

/-- The lookahead `(?!.*([a-z])\1)` of the pattern, as the positive scan it
negates: some adjacent pair consists of a character matched by `[a-z]`
(any letter under `IGNORECASE`, a lowercase letter otherwise) followed by
a repetition of it (case-insensitive repetition under `IGNORECASE`). -/
def hasDouble (ci : Bool) : Word → Bool
  | c1 :: c2 :: rest =>
    ((if ci then isAlphaCh c1 else isLowerCh c1)
      && (if ci then toLowerCh c1 == toLowerCh c2 else c1 == c2))
    || hasDouble ci (c2 :: rest)
  | _ => false

/-- One lookahead `(?!.*[edge]{2})` of the pattern, as the positive scan it
negates: some adjacent pair lies entirely in the class `cls`. -/
def hasAdj (ci : Bool) (cls : Word) : Word → Bool
  | c1 :: c2 :: rest =>
    (matchClass ci cls c1 && matchClass ci cls c2)
    || hasAdj ci cls (c2 :: rest)
  | _ => false

/-- `build_letterboxed_regex(sides, ci).fullmatch(w)` succeeding: the word
passes the no-double lookahead, all four per-side adjacency lookaheads,
and the body `[allowed]{3,}` (length at least 3, every character in the
allowed class). -/
def rxFullmatch (sides : List Word) (ci : Bool) (w : Word) : Bool :=
  !hasDouble ci w
  && (sides.map sideClass).all (fun e => !hasAdj ci e w)
  && decide (3 ≤ w.length)
  && w.all (fun c => matchClass ci (allowedClass sides) c)

/-- `allowed_set = set(''.join(sides))` in filter.py's `main`
(membership-relevant content: the distinct characters of the sides). -/
def allowed_set (sides : List Word) : List Nat := (sides.flatten).dedup

/-- The per-word acceptance test of the loop in filter.py's `main`:
skip empty words, words shorter than `min_length`, words with an
alphabetic character outside the allowed set (lowercased pre-check),
non-alphabetic words; keep the word iff the compiled regex fullmatches. -/
def keepWord (sides : List Word) (minLength : Nat) (ci : Bool) (w : Word) :
    Bool :=
  !w.isEmpty
  && decide (minLength ≤ w.length)
  && (w.filter isAlphaCh).all (fun c => (allowed_set sides).contains (toLowerCh c))
  && pyIsAlpha w
  && rxFullmatch sides ci w

/-- The validity filter of filter.py's `main` applied to a word list
(before the final sort). -/
def filterValid (sides : List Word) (minLength : Nat) (ci : Bool)
    (L : List Word) : List Word :=
  L.filter (keepWord sides minLength ci)

/-- `load_words` from filter_pairs.py applied to the lines of the file:
strip each line, skip blank lines and lines with non-alphabetic
characters, and lowercase what remains. -/
def load_words (lines : List (List Nat)) : List Word :=
  lines.filterMap (fun line =>
    let w := pyStrip line
    if w.isEmpty then none
    else if !pyIsAlpha w then none
    else some (w.map toLowerCh))

/-- `by_start` in `find_pairs`: the words whose first character is `c`,
in input order (the content of `defaultdict(list)` indexed at `c`). -/
def by_start (words : List Word) (c : Nat) : List Word :=
  words.filter (fun w => w.head? == some c)

/-- `a[-1]` for a nonempty word (the default is never reached when the
caller has checked nonemptiness). -/
def lastD (w : Word) : Nat := w.getLastD 0

/-- `find_pairs` from filter_pairs.py.  Indexing `w[0]` and `a[-1]` raises
`IndexError` on an empty word, so the result is `none` when some word is
empty; otherwise, for every word `a`, every continuation `b` indexed under
`a`'s last character with `letters_set ⊆ set(a) | set(b)` yields the
ordered pair `(a, b)`. -/
def find_pairs (words : List Word) (letters_set : Finset Nat) :
    Option (List (Word × Word)) :=
  if words.all (fun w => !w.isEmpty) then
    some (words.flatMap (fun a =>
      ((by_start words (lastD a)).filter (fun b =>
        decide (letters_set ⊆ a.toFinset ∪ b.toFinset))).map (fun b => (a, b))))
  else none

/-- The naive cross-product reference for `find_pairs`, written from the
spec's words: all ordered pairs `(A, B)` of input words with
`last(A) == first(B)` and `allowedLetters ⊆ letters(A) ∪ letters(B)`. -/
def find_pairs_spec (words : List Word) (letters_set : Finset Nat) :
    List (Word × Word) :=
  words.flatMap (fun a =>
    (words.filter (fun b =>
      b.head? == a.getLast?
        && decide (letters_set ⊆ a.toFinset ∪ b.toFinset))).map (fun b => (a, b)))

/-- The defensive pre-filter of filter_pairs.py's `main`:
`[w for w in words if set(w).issubset(letters_set) and len(w) >= 3]`. -/
def pre_filter (words : List Word) (letters_set : Finset Nat) : List Word :=
  words.filter (fun w =>
    decide (w.toFinset ⊆ letters_set) && decide (3 ≤ w.length))

/-- The duplicate-letters advisory of filter.py's `main`:
`len(set(letters_norm)) != 12` (printed as a note, never fatal). -/
def duplicate_advisory (letters : List Nat) : Bool :=
  decide (letters.dedup.length ≠ 12)

/-- Square construction as performed by `main`:
`split_sides(normalize_letters(raw))`. -/
def square_construction (raw : List Nat) : Except Nat (List Word) :=
  split_sides (normalize_letters raw)

/-- The exit code of filter.py's `main` at the square-construction step:
2 when `split_sides` raises, 0 (continue) otherwise. -/
def construction_exit_code (raw : List Nat) : Nat :=
  match square_construction raw with
  | Except.ok _ => 0
  | Except.error _ => 2

/-! ## Character facts (ASCII arithmetic) -/

theorem isUpperCh_iff {c : Nat} : isUpperCh c = true ↔ 65 ≤ c ∧ c ≤ 90 := by
  simp [isUpperCh]

theorem isLowerCh_iff {c : Nat} : isLowerCh c = true ↔ 97 ≤ c ∧ c ≤ 122 := by
  simp [isLowerCh]

theorem isAlphaCh_iff {c : Nat} :
    isAlphaCh c = true ↔ (65 ≤ c ∧ c ≤ 90) ∨ (97 ≤ c ∧ c ≤ 122) := by
  simp [isAlphaCh, isUpperCh, isLowerCh]

theorem toLowerCh_eq (c : Nat) :
    toLowerCh c = if 65 ≤ c ∧ c ≤ 90 then c + 32 else c := by
  unfold toLowerCh
  exact if_congr isUpperCh_iff rfl rfl

theorem toUpperCh_eq (c : Nat) :
    toUpperCh c = if 97 ≤ c ∧ c ≤ 122 then c - 32 else c := by
  unfold toUpperCh
  exact if_congr isLowerCh_iff rfl rfl

theorem toLowerCh_of_isLower {c : Nat} (h : isLowerCh c = true) :
    toLowerCh c = c := by
  rw [isLowerCh_iff] at h
  rw [toLowerCh_eq, if_neg (by omega)]

theorem isUpperCh_toLowerCh (c : Nat) : isUpperCh (toLowerCh c) = false := by
  rw [Bool.eq_false_iff, ne_eq, isUpperCh_iff, toLowerCh_eq]
  split <;> omega

theorem isLowerCh_toLowerCh_of_isAlpha {c : Nat} (h : isAlphaCh c = true) :
    isLowerCh (toLowerCh c) = true := by
  rw [isAlphaCh_iff] at h
  rw [isLowerCh_iff, toLowerCh_eq]
  split <;> omega

theorem isAlphaCh_of_isLower_toLowerCh {c : Nat}
    (h : isLowerCh (toLowerCh c) = true) : isAlphaCh c = true := by
  rw [isLowerCh_iff, toLowerCh_eq] at h
  rw [isAlphaCh_iff]
  by_cases hc : 65 ≤ c ∧ c ≤ 90
  · omega
  · rw [if_neg hc] at h
    omega

theorem isLowerCh_toUpperCh (c : Nat) : isLowerCh (toUpperCh c) = false := by
  rw [Bool.eq_false_iff, ne_eq, isLowerCh_iff, toUpperCh_eq]
  split <;> omega

theorem toLowerCh_toLowerCh (c : Nat) :
    toLowerCh (toLowerCh c) = toLowerCh c := by
  have h := isUpperCh_toLowerCh c
  rw [Bool.eq_false_iff, ne_eq, isUpperCh_iff] at h
  rw [toLowerCh_eq (toLowerCh c), if_neg h]

theorem isAlphaCh_toLowerCh_of_isAlpha {c : Nat} (h : isAlphaCh c = true) :
    isAlphaCh (toLowerCh c) = true := by
  rw [isAlphaCh_iff] at h ⊢
  rw [toLowerCh_eq]
  split <;> omega

/-! ## Membership in the sorted, deduplicated character classes -/

theorem contains_iff_mem {l : List Nat} {c : Nat} :
    l.contains c = true ↔ c ∈ l := by
  simp [List.contains]

theorem mem_insertSorted {c d : Nat} {l : List Nat} :
    d ∈ insertSorted c l ↔ d = c ∨ d ∈ l := by
  induction l with
  | nil => simp [insertSorted]
  | cons e es ih =>
    rw [insertSorted]
    split
    · simp [List.mem_cons]
    · simp only [List.mem_cons, ih]
      tauto

theorem mem_sortChars {d : Nat} {l : List Nat} :
    d ∈ sortChars l ↔ d ∈ l := by
  induction l with
  | nil => simp [sortChars]
  | cons e es ih =>
    rw [sortChars]
    simp [mem_insertSorted, ih]

theorem mem_sortedDedup {d : Nat} {l : List Nat} :
    d ∈ sortedDedup l ↔ d ∈ l := by
  rw [sortedDedup, mem_sortChars, List.mem_dedup]

theorem mem_sideClass {c : Nat} {s : Word} :
    c ∈ sideClass s ↔ c ∈ s.map toLowerCh := by
  rw [sideClass, mem_sortedDedup]

theorem mem_allowedClass {c : Nat} {sides : List Word} :
    c ∈ allowedClass sides ↔ ∃ s ∈ sides, c ∈ s.map toLowerCh := by
  rw [allowedClass, mem_sortedDedup, List.mem_flatten]
  constructor
  · rintro ⟨t, ht, hc⟩
    rw [List.mem_map] at ht
    rcases ht with ⟨s, hs, rfl⟩
    exact ⟨s, hs, mem_sideClass.mp hc⟩
  · rintro ⟨s, hs, hc⟩
    exact ⟨sideClass s, List.mem_map_of_mem sideClass hs, mem_sideClass.mpr hc⟩

/-! ## Characterizations of the lookahead scans -/

theorem hasAdj_true_iff (ci : Bool) (cls : Word) (w : Word) :
    hasAdj ci cls w = true ↔
      ∃ p ∈ w.zip w.tail,
        matchClass ci cls p.1 = true ∧ matchClass ci cls p.2 = true := by
  induction w with
  | nil => simp [hasAdj]
  | cons c1 t ih =>
    cases t with
    | nil => simp [hasAdj]
    | cons c2 rest =>
      rw [hasAdj]
      simp only [Bool.or_eq_true, Bool.and_eq_true, ih, List.tail_cons,
        List.zip_cons_cons, List.mem_cons]
      constructor
      · rintro (⟨h1, h2⟩ | ⟨p, hp, h⟩)
        · exact ⟨(c1, c2), Or.inl rfl, h1, h2⟩
        · exact ⟨p, Or.inr hp, h⟩
      · rintro ⟨p, (rfl | hp), h⟩
        · exact Or.inl h
        · exact Or.inr ⟨p, hp, h⟩

theorem hasDouble_true_iff (w : Word) :
    hasDouble true w = true ↔
      ∃ p ∈ w.zip w.tail,
        isAlphaCh p.1 = true ∧ toLowerCh p.1 = toLowerCh p.2 := by
  induction w with
  | nil => simp [hasDouble]
  | cons c1 t ih =>
    cases t with
    | nil => simp [hasDouble]
    | cons c2 rest =>
      rw [hasDouble]
      simp only [if_true, beq_iff_eq, Bool.or_eq_true, Bool.and_eq_true, ih,
        List.tail_cons, List.zip_cons_cons, List.mem_cons]
      constructor
      · rintro (⟨h1, h2⟩ | ⟨p, hp, h⟩)
        · exact ⟨(c1, c2), Or.inl rfl, h1, h2⟩
        · exact ⟨p, Or.inr hp, h⟩
      · rintro ⟨p, (rfl | hp), h⟩
        · exact Or.inl h
        · exact Or.inr ⟨p, hp, h⟩

/-! ## The four sides of a 12-letter square -/

theorem flatten_sidesOf {tw : List Nat} (h : tw.length = 12) :
    (sidesOf tw).flatten = tw := by
  have e1 : tw.take 3 ++ tw.drop 3 = tw := List.take_append_drop 3 tw
  have e2 : (tw.drop 3).take 3 ++ (tw.drop 3).drop 3 = tw.drop 3 :=
    List.take_append_drop 3 _
  have e3 : ((tw.drop 3).drop 3).take 3 ++ ((tw.drop 3).drop 3).drop 3
      = (tw.drop 3).drop 3 := List.take_append_drop 3 _
  have d2 : (tw.drop 3).drop 3 = tw.drop 6 := by
    rw [List.drop_drop]
  have d3 : ((tw.drop 3).drop 3).drop 3 = tw.drop 9 := by
    rw [List.drop_drop, List.drop_drop]
  have h9 : (tw.drop 9).take 3 = tw.drop 9 :=
    List.take_of_length_le (by simp [h])
  simp only [sidesOf, List.flatten_cons, List.flatten_nil, List.append_nil, h9]
  rw [← d2, ← d3, e3, e2, e1]

theorem mem_of_mem_sidesOf {tw : List Nat} {s : Word} {c : Nat}
    (hs : s ∈ sidesOf tw) (hc : c ∈ s) : c ∈ tw := by
  simp only [sidesOf, List.mem_cons, List.not_mem_nil, or_false] at hs
  rcases hs with rfl | rfl | rfl | rfl
  · exact List.take_subset _ _ hc
  · exact List.drop_subset _ _ (List.take_subset _ _ hc)
  · exact List.drop_subset _ _ (List.take_subset _ _ hc)
  · exact List.drop_subset _ _ (List.take_subset _ _ hc)

theorem mem_sidesOf_iff {tw : List Nat} {c : Nat} (h : tw.length = 12) :
    (∃ s ∈ sidesOf tw, c ∈ s) ↔ c ∈ tw := by
  conv_rhs => rw [← flatten_sidesOf h]
  rw [List.mem_flatten]

/-! ## Classes built from all-lowercase squares -/

theorem map_toLowerCh_self {s : Word} (h : ∀ c ∈ s, isLowerCh c = true) :
    s.map toLowerCh = s := by
  have := List.map_congr_left (fun c hc => toLowerCh_of_isLower (h c hc))
  rw [this, List.map_id']

theorem matchClass_lowercase_iff {cls : Word}
    (hcls : ∀ d ∈ cls, isLowerCh d = true) (c : Nat) :
    matchClass true cls c = true ↔ toLowerCh c ∈ cls := by
  simp only [matchClass, if_true, Bool.or_eq_true, contains_iff_mem]
  constructor
  · rintro ((hc | hc) | hc)
    · rw [toLowerCh_of_isLower (hcls c hc)]
      exact hc
    · exact hc
    · have := hcls _ hc
      rw [isLowerCh_toUpperCh] at this
      exact absurd this (by simp)
  · intro hc
    exact Or.inl (Or.inr hc)

/-! ## normalize_letters -/

theorem isAlphaCh_of_isLower {c : Nat} (h : isLowerCh c = true) :
    isAlphaCh c = true := by
  rw [isLowerCh_iff] at h
  rw [isAlphaCh_iff]
  omega

theorem normalize_letters_eq (s : List Nat) :
    normalize_letters s = (s.filter isAlphaCh).map toLowerCh := by
  induction s with
  | nil => rfl
  | cons c cs ih =>
    rw [normalize_letters, List.filter_cons]
    by_cases hc : isAlphaCh c = true
    · rw [if_pos hc, if_pos hc, List.map_cons, ih]
    · rw [if_neg hc, if_neg hc, ih]

theorem normalize_letters_all_lower (s : List Nat) :
    ∀ c ∈ normalize_letters s, isLowerCh c = true := by
  induction s with
  | nil => intro c hc; simp [normalize_letters] at hc
  | cons d ds ih =>
    intro c hc
    rw [normalize_letters] at hc
    by_cases hd : isAlphaCh d = true
    · rw [if_pos hd, List.mem_cons] at hc
      rcases hc with rfl | hc
      · exact isLowerCh_toLowerCh_of_isAlpha hd
      · exact ih c hc
    · rw [if_neg hd] at hc
      exact ih c hc

theorem normalize_letters_fix {l : List Nat}
    (h : ∀ c ∈ l, isLowerCh c = true) : normalize_letters l = l := by
  induction l with
  | nil => rfl
  | cons c cs ih =>
    have hc := h c (List.mem_cons_self c cs)
    rw [normalize_letters, if_pos (isAlphaCh_of_isLower hc),
      toLowerCh_of_isLower hc, ih (fun d hd => h d (List.mem_cons_of_mem c hd))]

/-- C10: `normalize_letters` is idempotent, its output consists only of
lowercase alphabetic characters, and it is exactly the alphabetic
characters of the input in their original relative order, lowercased. -/
theorem C10_normalize_letters (s : List Nat) :
    normalize_letters (normalize_letters s) = normalize_letters s ∧
    (normalize_letters s).all (fun c => isLowerCh c && isAlphaCh c) = true ∧
    normalize_letters s = (s.filter isAlphaCh).map toLowerCh := by
  refine ⟨normalize_letters_fix (normalize_letters_all_lower s), ?_,
    normalize_letters_eq s⟩
  rw [List.all_eq_true]
  intro c hc
  have hlo := normalize_letters_all_lower s c hc
  rw [Bool.and_eq_true]
  exact ⟨hlo, isAlphaCh_of_isLower hlo⟩

/-- C7: filtering an already-filtered word list with the same square,
minimum length and case flag yields the identical list. -/
theorem C7_filter_idempotent (sides : List Word) (minLength : Nat) (ci : Bool)
    (L : List Word) :
    filterValid sides minLength ci (filterValid sides minLength ci L) =
      filterValid sides minLength ci L := by
  unfold filterValid
  rw [List.filter_filter]
  simp only [Bool.and_self]

/-- C5: `normalize_letters` strips non-alphabetic characters and lowercases
the rest; when the normalized result does not have exactly 12 characters,
square construction fails with an error reporting the actual character
count and the run exits with code 2; otherwise construction succeeds. -/
theorem C5_invalid_square (raw : List Nat) :
    normalize_letters raw = (raw.filter isAlphaCh).map toLowerCh ∧
    ((normalize_letters raw).length ≠ 12 →
      square_construction raw = Except.error (normalize_letters raw).length ∧
      construction_exit_code raw = 2) ∧
    ((normalize_letters raw).length = 12 →
      square_construction raw = Except.ok (sidesOf (normalize_letters raw)) ∧
      construction_exit_code raw = 0) := by
  refine ⟨normalize_letters_eq raw, ?_, ?_⟩
  · intro h
    have hsc : square_construction raw
        = Except.error (normalize_letters raw).length := by
      unfold square_construction split_sides
      rw [if_neg h]
    exact ⟨hsc, by rw [construction_exit_code, hsc]⟩
  · intro h
    have hsc : square_construction raw
        = Except.ok (sidesOf (normalize_letters raw)) := by
      unfold square_construction split_sides
      rw [if_pos h]
    exact ⟨hsc, by rw [construction_exit_code, hsc]⟩

/-- Witness for C5 at the concrete input "ab-c" (code points 97, 98, 45,
99): normalization keeps 3 characters, construction reports length 3 and
the exit code is 2. -/
theorem C5_invalid_square_witness :
    square_construction [97, 98, 45, 99]
        = Except.error (normalize_letters [97, 98, 45, 99]).length ∧
      construction_exit_code [97, 98, 45, 99] = 2 :=
  (C5_invalid_square [97, 98, 45, 99]).2.1 (by decide)

/-- C6: a word containing a non-alphabetic character is classified invalid
by the main filter and never appears in the filtered output (with no error
signal: the filter is a total function), and the pair finder's word loader
likewise keeps only all-alphabetic words. -/
theorem C6_malformed_words :
    (∀ (sides : List Word) (minLength : Nat) (ci : Bool) (w : Word),
      (∃ c ∈ w, isAlphaCh c = false) →
        keepWord sides minLength ci w = false) ∧
    (∀ (sides : List Word) (minLength : Nat) (ci : Bool) (L : List Word)
      (w : Word), (∃ c ∈ w, isAlphaCh c = false) →
        w ∉ filterValid sides minLength ci L) ∧
    (∀ (lines : List (List Nat)) (w : Word), w ∈ load_words lines →
      w.all isAlphaCh = true) := by
  have key : ∀ (sides : List Word) (minLength : Nat) (ci : Bool) (w : Word),
      (∃ c ∈ w, isAlphaCh c = false) →
        keepWord sides minLength ci w = false := by
    intro sides ml ci w h
    rcases h with ⟨c, hc, hac⟩
    by_contra hk
    rw [Bool.not_eq_false] at hk
    simp only [keepWord, Bool.and_eq_true, pyIsAlpha, List.all_eq_true] at hk
    have := hk.1.2.2 c hc
    rw [hac] at this
    exact absurd this (by simp)
  refine ⟨key, ?_, ?_⟩
  · intro sides ml ci L w h hw
    rw [filterValid, List.mem_filter, key sides ml ci w h] at hw
    exact absurd hw.2 (by simp)
  · intro lines w hw
    simp only [load_words, List.mem_filterMap] at hw
    rcases hw with ⟨line, _, heq⟩
    split at heq
    · exact absurd heq (by simp)
    · split at heq
      · exact absurd heq (by simp)
      · rename_i hne
        have hne' : pyIsAlpha (pyStrip line) = true := by
          revert hne
          cases pyIsAlpha (pyStrip line) <;> simp
        rw [Option.some_inj] at heq
        subst heq
        rw [List.all_eq_true]
        intro c hc
        rw [List.mem_map] at hc
        rcases hc with ⟨d, hd, rfl⟩
        have hall := (Bool.and_eq_true _ _ |>.mp hne').2
        rw [List.all_eq_true] at hall
        exact isAlphaCh_toLowerCh_of_isAlpha (hall d hd)

/-- Witness for C6: the word "ab1" (code points 97, 98, 49) contains the
digit '1' and is rejected by the filter for the square "abcdefghijkl". -/
theorem C6_malformed_words_witness :
    keepWord [[97, 98, 99], [100, 101, 102], [103, 104, 105], [106, 107, 108]]
      3 true [97, 98, 49] = false :=
  C6_malformed_words.1 _ 3 true [97, 98, 49] ⟨49, by decide, by decide⟩

/-- C8: in case-sensitive mode the character classes contain no uppercase
letter (they are built from lowercased side letters), so a word with an
uppercase letter fails the body of the pattern and is rejected. -/
theorem C8_case_sensitive (sides : List Word) (w : Word)
    (h : ∃ c ∈ w, isUpperCh c = true) :
    (allowedClass sides).all (fun c => !isUpperCh c) = true ∧
    rxFullmatch sides false w = false := by
  have hclass : ∀ d ∈ allowedClass sides, isUpperCh d = false := by
    intro d hd
    rw [mem_allowedClass] at hd
    rcases hd with ⟨s, _, hd⟩
    rw [List.mem_map] at hd
    rcases hd with ⟨e, _, rfl⟩
    exact isUpperCh_toLowerCh e
  constructor
  · rw [List.all_eq_true]
    intro d hd
    rw [hclass d hd]
    rfl
  · rcases h with ⟨c, hc, hup⟩
    have hbody : w.all (fun c => matchClass false (allowedClass sides) c)
        = false := by
      rw [List.all_eq_false]
      refine ⟨c, hc, ?_⟩
      intro hmem
      rw [show matchClass false (allowedClass sides) c
            = (allowedClass sides).contains c from rfl,
        contains_iff_mem] at hmem
      rw [hclass c hmem] at hup
      exact absurd hup (by simp)
    rw [rxFullmatch, hbody, Bool.and_false]

/-- Witness for C8: for the square "abcdefghijkl", the word "AB" (code
points 65, 66) is rejected by the case-sensitive matcher even though "ab"
would only fail the length test, and the allowed class has no uppercase
letter. -/
theorem C8_case_sensitive_witness :
    (allowedClass [[97, 98, 99], [100, 101, 102], [103, 104, 105],
        [106, 107, 108]]).all (fun c => !isUpperCh c) = true ∧
    rxFullmatch [[97, 98, 99], [100, 101, 102], [103, 104, 105],
        [106, 107, 108]] false [65, 66] = false :=
  C8_case_sensitive _ [65, 66] ⟨65, by decide, by decide⟩

/-- C4: a 12-letter square with a letter repeated across sides is still
constructed successfully (the duplicate-letters advisory fires, and is the
only signal), and the matcher rejects any word in which two consecutive
letters share any side. -/
theorem C4_duplicate_letters (tw : List Nat) (h12 : tw.length = 12)
    (hlo : ∀ c ∈ tw, isLowerCh c = true) :
    split_sides tw = Except.ok (sidesOf tw) ∧
    (¬ tw.Nodup → duplicate_advisory tw = true) ∧
    (∀ (w : Word) (p : Nat × Nat) (s : Word), p ∈ w.zip w.tail →
      s ∈ sidesOf tw → toLowerCh p.1 ∈ s → toLowerCh p.2 ∈ s →
      rxFullmatch (sidesOf tw) true w = false) := by
  refine ⟨by unfold split_sides; rw [if_pos h12], ?_, ?_⟩
  · intro hnd
    rw [duplicate_advisory, decide_eq_true_eq]
    intro hlen
    apply hnd
    have hsub := List.dedup_sublist tw
    have heq := hsub.eq_of_length (by rw [hlen, h12])
    rw [← heq]
    exact List.nodup_dedup tw
  · intro w p s hp hs h1 h2
    have hside_lower : ∀ c ∈ s, isLowerCh c = true :=
      fun c hc => hlo c (mem_of_mem_sidesOf hs hc)
    have hcls_lower : ∀ d ∈ sideClass s, isLowerCh d = true := by
      intro d hd
      rw [mem_sideClass, map_toLowerCh_self hside_lower] at hd
      exact hside_lower d hd
    have m1 : matchClass true (sideClass s) p.1 = true := by
      rw [matchClass_lowercase_iff hcls_lower, mem_sideClass,
        map_toLowerCh_self hside_lower]
      exact h1
    have m2 : matchClass true (sideClass s) p.2 = true := by
      rw [matchClass_lowercase_iff hcls_lower, mem_sideClass,
        map_toLowerCh_self hside_lower]
      exact h2
    have hadj : hasAdj true (sideClass s) w = true :=
      (hasAdj_true_iff true (sideClass s) w).mpr ⟨p, hp, m1, m2⟩
    have hall : ((sidesOf tw).map sideClass).all (fun e => !hasAdj true e w)
        = false := by
      rw [List.all_eq_false]
      exact ⟨sideClass s, List.mem_map_of_mem sideClass hs, by rw [hadj]; simp⟩
    rw [rxFullmatch, hall, Bool.and_false, Bool.false_and, Bool.false_and]

/-- Witness for C4 at the square "abcaefghijkl" (the letter 'a' is on
sides 1 and 2): construction succeeds, the advisory fires, and the word
"cah" (code points 99, 97, 104) is rejected because 'c' and 'a' share
side "abc". -/
theorem C4_duplicate_letters_witness :
    split_sides [97, 98, 99, 97, 101, 102, 103, 104, 105, 106, 107, 108]
        = Except.ok (sidesOf [97, 98, 99, 97, 101, 102, 103, 104, 105, 106,
            107, 108]) ∧
    duplicate_advisory [97, 98, 99, 97, 101, 102, 103, 104, 105, 106, 107,
        108] = true ∧
    rxFullmatch (sidesOf [97, 98, 99, 97, 101, 102, 103, 104, 105, 106, 107,
        108]) true [99, 97, 104] = false :=
  ⟨(C4_duplicate_letters _ (by decide) (by decide)).1,
   (C4_duplicate_letters _ (by decide) (by decide)).2.1 (by decide),
   (C4_duplicate_letters _ (by decide) (by decide)).2.2 [99, 97, 104]
     (99, 97) [97, 98, 99] (by decide) (by decide) (by decide) (by decide)⟩

/-- Counterexample to C1 as stated: for the square "abcdefghijkl" (12
pairwise distinct letters) and minLength = 4, the compiled regex still
fullmatches the word "dad" (code points 100, 97, 100), although its
length 3 is below minLength — the regex hardcodes the bound 3 and does
not depend on minLength, so the claimed equivalence fails for any
minLength other than 3. -/
theorem C1_counterexample :
    rxFullmatch (sidesOf [97, 98, 99, 100, 101, 102, 103, 104, 105, 106,
      107, 108]) true [100, 97, 100] = true ∧
    ¬ (4 ≤ ([100, 97, 100] : Word).length) := by
  constructor
  · decide
  · decide

/-- C1 (amended): for a square of 12 pairwise distinct lowercase letters,
the compiled regex (default case-insensitive mode) fullmatches a word iff
the word has length at least 3 (the bound hardcoded in the pattern,
independent of minLength, which is enforced by a separate pre-check),
every letter is among the square's 12 letters (up to case), no two
consecutive letters are equal (up to case), and no two consecutive
letters lie on the same side (up to case). -/
theorem C1_regex_characterization (tw : List Nat) (sides : List Word)
    (h12 : tw.length = 12) (_hnd : tw.Nodup)
    (hlo : ∀ c ∈ tw, isLowerCh c = true)
    (hsides : split_sides tw = Except.ok sides) (w : Word) :
    rxFullmatch sides true w = true ↔
      (3 ≤ w.length ∧
       (∀ c ∈ w, toLowerCh c ∈ tw) ∧
       (∀ p ∈ w.zip w.tail, toLowerCh p.1 ≠ toLowerCh p.2) ∧
       (∀ p ∈ w.zip w.tail,
         ¬ ∃ s ∈ sides, toLowerCh p.1 ∈ s ∧ toLowerCh p.2 ∈ s)) := by
  unfold split_sides at hsides
  rw [if_pos h12, Except.ok.injEq] at hsides
  subst hsides
  have hside_lower : ∀ s ∈ sidesOf tw, ∀ c ∈ s, isLowerCh c = true :=
    fun s hs c hc => hlo c (mem_of_mem_sidesOf hs hc)
  have hcls_lower : ∀ s ∈ sidesOf tw, ∀ d ∈ sideClass s,
      isLowerCh d = true := by
    intro s hs d hd
    rw [mem_sideClass, map_toLowerCh_self (hside_lower s hs)] at hd
    exact hside_lower s hs d hd
  have hallow_mem : ∀ c, c ∈ allowedClass (sidesOf tw) ↔ c ∈ tw := by
    intro c
    rw [mem_allowedClass]
    constructor
    · rintro ⟨s, hs, hc⟩
      rw [map_toLowerCh_self (hside_lower s hs)] at hc
      exact mem_of_mem_sidesOf hs hc
    · intro hc
      rcases (mem_sidesOf_iff h12).mpr hc with ⟨s, hs, hcs⟩
      exact ⟨s, hs, by
        rw [map_toLowerCh_self (hside_lower s hs)]
        exact hcs⟩
  have hallow_lower : ∀ d ∈ allowedClass (sidesOf tw), isLowerCh d = true :=
    fun d hd => hlo d ((hallow_mem d).mp hd)
  have hmatch : ∀ c, matchClass true (allowedClass (sidesOf tw)) c = true ↔
      toLowerCh c ∈ tw := by
    intro c
    rw [matchClass_lowercase_iff hallow_lower, hallow_mem]
  have hsidemem : ∀ s, s ∈ sidesOf tw → ∀ c, toLowerCh c ∈ s →
      toLowerCh c ∈ sideClass s := by
    intro s hs c hc
    rw [mem_sideClass, map_toLowerCh_self (hside_lower s hs)]
    exact hc
  rw [rxFullmatch]
  simp only [Bool.and_eq_true, Bool.not_eq_true', List.all_eq_true,
    decide_eq_true_eq]
  constructor
  · rintro ⟨⟨⟨hd, ha⟩, hlen⟩, hmem⟩
    have hmem' : ∀ c ∈ w, toLowerCh c ∈ tw :=
      fun c hc => (hmatch c).mp (hmem c hc)
    refine ⟨hlen, hmem', ?_, ?_⟩
    · rintro ⟨x, y⟩ hp heq
      have hx : x ∈ w := (List.of_mem_zip hp).1
      have halx : isAlphaCh x = true :=
        isAlphaCh_of_isLower_toLowerCh (hlo _ (hmem' x hx))
      have := (hasDouble_true_iff w).mpr ⟨(x, y), hp, halx, heq⟩
      rw [hd] at this
      exact absurd this (by simp)
    · rintro ⟨x, y⟩ hp ⟨s, hs, h1, h2⟩
      have m1 : matchClass true (sideClass s) x = true := by
        rw [matchClass_lowercase_iff (hcls_lower s hs)]
        exact hsidemem s hs x h1
      have m2 : matchClass true (sideClass s) y = true := by
        rw [matchClass_lowercase_iff (hcls_lower s hs)]
        exact hsidemem s hs y h2
      have hadj := (hasAdj_true_iff true (sideClass s) w).mpr
        ⟨(x, y), hp, m1, m2⟩
      rw [ha (sideClass s) (List.mem_map_of_mem sideClass hs)] at hadj
      exact absurd hadj (by simp)
  · rintro ⟨hlen, hmem, hnodbl, hnoadj⟩
    refine ⟨⟨⟨?_, ?_⟩, hlen⟩, fun c hc => (hmatch c).mpr (hmem c hc)⟩
    · rw [Bool.eq_false_iff, ne_eq, hasDouble_true_iff]
      rintro ⟨⟨x, y⟩, hp, _, heq⟩
      exact hnodbl (x, y) hp heq
    · intro e he
      rw [List.mem_map] at he
      rcases he with ⟨s, hs, rfl⟩
      rw [Bool.eq_false_iff, ne_eq, hasAdj_true_iff]
      rintro ⟨⟨x, y⟩, hp, m1, m2⟩
      have h1 : toLowerCh x ∈ s := by
        rw [matchClass_lowercase_iff (hcls_lower s hs), mem_sideClass,
          map_toLowerCh_self (hside_lower s hs)] at m1
        exact m1
      have h2 : toLowerCh y ∈ s := by
        rw [matchClass_lowercase_iff (hcls_lower s hs), mem_sideClass,
          map_toLowerCh_self (hside_lower s hs)] at m2
        exact m2
      exact hnoadj (x, y) hp ⟨s, hs, h1, h2⟩

/-- Witness for the amended C1: for the square "abcdefghijkl" the four
invariants hold of the word "dad", so the regex accepts it. -/
theorem C1_regex_characterization_witness :
    rxFullmatch (sidesOf [97, 98, 99, 100, 101, 102, 103, 104, 105, 106,
      107, 108]) true [100, 97, 100] = true :=
  (C1_regex_characterization
      [97, 98, 99, 100, 101, 102, 103, 104, 105, 106, 107, 108] _
      (by decide) (by decide) (by decide) rfl [100, 97, 100]).mpr
    (by decide)

/-! ## find_pairs -/

theorem getLast?_eq_lastD {a : Word} (h : a ≠ []) :
    a.getLast? = some (lastD a) := by
  cases hx : a.getLast? with
  | none =>
    have hsome := List.getLast?_isSome.mpr h
    rw [hx] at hsome
    exact absurd hsome (by simp)
  | some x =>
    rw [lastD, List.getLastD_eq_getLast?, hx]
    rfl

theorem find_pairs_eq_spec {words : List Word} {ls : Finset Nat}
    (h : ∀ w ∈ words, w ≠ []) :
    find_pairs words ls = some (find_pairs_spec words ls) := by
  have hguard : words.all (fun w => !w.isEmpty) = true := by
    rw [List.all_eq_true]
    intro w hw
    cases w with
    | nil => exact absurd rfl (h _ hw)
    | cons c t => rfl
  unfold find_pairs
  rw [if_pos hguard]
  congr 1
  unfold find_pairs_spec
  rw [List.flatMap_def, List.flatMap_def]
  apply congrArg List.flatten
  apply List.map_congr_left
  intro a ha
  have hga : a.getLast? = some (lastD a) := getLast?_eq_lastD (h a ha)
  simp only [by_start]
  rw [List.filter_filter]
  congr 1
  apply List.filter_congr
  intro b _
  rw [hga, Bool.and_comm]

/-- C2: under the nonempty-words precondition, `find_pairs` returns
exactly the naive cross-product reference `find_pairs_spec` (even as a
list, in the same order), and permuting the input list permutes the
result: the set of returned pairs does not depend on the input order. -/
theorem C2_find_pairs_equiv (words : List Word) (ls : Finset Nat)
    (h : ∀ w ∈ words, w ≠ []) :
    find_pairs words ls = some (find_pairs_spec words ls) ∧
    ∀ words' : List Word, words'.Perm words →
      ∃ ps, find_pairs words' ls = some ps ∧
        ps.Perm (find_pairs_spec words ls) := by
  refine ⟨find_pairs_eq_spec h, ?_⟩
  intro words' hperm
  have h' : ∀ w ∈ words', w ≠ [] := fun w hw => h w (hperm.mem_iff.mp hw)
  refine ⟨find_pairs_spec words' ls, find_pairs_eq_spec h', ?_⟩
  unfold find_pairs_spec
  refine List.Perm.trans (List.Perm.flatMap_left words' ?_)
    (hperm.flatMap_right _)
  intro a _
  exact (hperm.filter _).map _

/-- Witness for C2 at words "ab", "ba" and letter set \x7b'a','b'\x7d. -/
theorem C2_find_pairs_equiv_witness :
    find_pairs [[97, 98], [98, 97]] {97, 98}
      = some (find_pairs_spec [[97, 98], [98, 97]] {97, 98}) :=
  (C2_find_pairs_equiv [[97, 98], [98, 97]] {97, 98} (by decide)).1

/-- C3: when every input word uses only allowed letters, each pair
returned by `find_pairs` covers the allowed set exactly: the union of the
two words' letter sets equals it, with nothing missing and nothing
foreign. -/
theorem C3_coverage_exact (words : List Word) (ls : Finset Nat)
    (hsub : ∀ w ∈ words, w.toFinset ⊆ ls) (ps : List (Word × Word))
    (hps : find_pairs words ls = some ps) (p : Word × Word) (hp : p ∈ ps) :
    p.1.toFinset ∪ p.2.toFinset = ls := by
  unfold find_pairs at hps
  split at hps
  · rw [Option.some_inj] at hps
    subst hps
    rw [List.mem_flatMap] at hp
    rcases hp with ⟨a, ha, hp⟩
    rw [List.mem_map] at hp
    rcases hp with ⟨b, hb, rfl⟩
    rw [List.mem_filter] at hb
    have hbw : b ∈ words := by
      have hby := hb.1
      simp only [by_start, List.mem_filter] at hby
      exact hby.1
    have hcov : ls ⊆ a.toFinset ∪ b.toFinset := by
      have hc := hb.2
      rwa [decide_eq_true_eq] at hc
    exact Finset.Subset.antisymm
      (Finset.union_subset (hsub a ha) (hsub b hbw)) hcov
  · exact absurd hps (by simp)

/-- Witness for C3: for words "ab", "ba" over letters \x7b'a','b'\x7d the
pair ("ab","ba") is returned and its letter union is exactly the allowed
set. -/
theorem C3_coverage_exact_witness :
    ([97, 98] : Word).toFinset ∪ ([98, 97] : Word).toFinset
      = ({97, 98} : Finset Nat) :=
  C3_coverage_exact [[97, 98], [98, 97]] {97, 98} (by decide) _ rfl
    ([97, 98], [98, 97]) (by decide)

/-- C9: `find_pairs` is total on lists of nonempty words: it returns an
empty list (no error) on empty input, returns a result whenever all words
are nonempty, and in particular always returns a result on the output of
the defensive pre-filter of `main`, whose kept words have length ≥ 3. -/
theorem C9_totality :
    (∀ ls : Finset Nat, find_pairs [] ls = some []) ∧
    (∀ (words : List Word) (ls : Finset Nat), (∀ w ∈ words, w ≠ []) →
      ∃ ps, find_pairs words ls = some ps) ∧
    (∀ (words : List Word) (ls : Finset Nat),
      ∃ ps, find_pairs (pre_filter words ls) ls = some ps) := by
  have key : ∀ (words : List Word) (ls : Finset Nat),
      (∀ w ∈ words, w ≠ []) → ∃ ps, find_pairs words ls = some ps := by
    intro words ls h
    have hguard : words.all (fun w => !w.isEmpty) = true := by
      rw [List.all_eq_true]
      intro w hw
      cases w with
      | nil => exact absurd rfl (h _ hw)
      | cons c t => rfl
    exact ⟨_, by unfold find_pairs; rw [if_pos hguard]⟩
  refine ⟨fun ls => rfl, key, ?_⟩
  intro words ls
  apply key
  intro w hw
  simp only [pre_filter, List.mem_filter, Bool.and_eq_true,
    decide_eq_true_eq] at hw
  have hlen := hw.2.2
  intro hnil
  rw [hnil] at hlen
  exact absurd hlen (by decide)

/-- Witness for C9: a singleton list of the nonempty word "ab". -/
theorem C9_totality_witness :
    ∃ ps, find_pairs [[97, 98]] (∅ : Finset Nat) = some ps :=
  C9_totality.2.1 [[97, 98]] ∅ (by decide)

end Wordbox
